import Mathlib

/-!
# Verification of the RSA demonstration program (`rsa.cpp`)

Shallow embedding of the number-theoretic core of the program: primality test,
divisor enumeration, coprimality test, Euler totient, integer power, key
generation and the encode/decode pair.  `long long int` values are modelled as
unbounded integers (`ℤ`); the spec fixes arbitrary-precision semantics for the
arithmetic, and every concrete input examined below is far from the 64-bit
range.  C++ `%` is the truncated-division remainder; it agrees with Lean's
Euclidean `%` on the nonnegative operands produced by every loop and call site
modelled here, and we use Lean's `%` throughout.

A C++ `assert` aborts the process; the spec calls these failures
`InvalidArgument`.  Out-of-bounds `std::vector` indexing is undefined
behavior, and the private-exponent search loop is unbounded, so a run of it
need not terminate.  The embedding makes all three outcomes explicit.
-/

/-- Possible non-value outcomes of running a routine of the program:
`InvalidArgument` models a fired `assert`; `NoValidExponent` is the error the
spec prescribes for an exhausted public-exponent scan (the code never produces
it, as proved below); `UndefinedBehavior` models an out-of-bounds vector
access; `NonTermination` models a search loop that never hits its exit
condition. -/
inductive RSAError where
  | InvalidArgument : RSAError
  | NoValidExponent : RSAError
  | UndefinedBehavior : RSAError
  | NonTermination : RSAError
deriving DecidableEq, Repr

namespace Key

/-- Model of `Key::Public { n, e }`. -/
structure Public where
  n : ℤ
  e : ℤ
deriving DecidableEq, Repr

/-- Model of `Key::Private { p, q, d }`. -/
structure Private where
  p : ℤ
  q : ℤ
  d : ℤ
deriving DecidableEq, Repr

end Key

namespace Utility

namespace Math

/-- Model of `Utility::Math::isPrime`: trial division, `for (i = 2; i < x; ++i)
if (x % i == 0) return false; return true;`.  The loop range `[2, x)` is
empty for `x ≤ 2`, so those inputs (including `1`, `0` and negatives) all
yield `true`. -/
def isPrime (x : ℤ) : Bool :=
  (List.range (x - 2).toNat).all (fun j => x % ((j : ℤ) + 2) != 0)

/-- Model of `Utility::Math::dividerList`: collects every `i` with `1 ≤ i ≤ x` and
`x % i == 0`, in ascending order.  For `x ≤ 0` the loop body never runs and
the list is empty. -/
def dividerList (x : ℤ) : List ℤ :=
  ((List.range x.toNat).map (fun (j : ℕ) => (j : ℤ) + 1)).filter (fun i => x % i == 0)

/-- One pass of the inner loop of `Utility::Math::areCoprimes`: the index `i`
runs over `[1, a_dividerList.size())` but `b_dividerList` is also indexed at
`i`, which is out of bounds (undefined behavior) whenever `i` reaches
`b_dividerList.size()` first.  The index list argument enumerates the values
of `i` still to visit. -/
def coprimeInner (aL bL : List ℤ) : List ℕ → Except RSAError Bool
  | [] => .ok true
  | i :: rest =>
    match bL.get? i with
    | none => .error .UndefinedBehavior
    | some bv => if aL.getD i 0 = bv then .ok false else coprimeInner aL bL rest

/-- The outer loop of `Utility::Math::areCoprimes`: `j` runs over
`[1, b_dividerList.size())`; its body does not depend on `j` and just reruns
the inner pass.  The `ℕ` argument counts the remaining iterations. -/
def coprimeOuter (aL bL : List ℤ) : ℕ → Except RSAError Bool
  | 0 => .ok true
  | j + 1 =>
    match coprimeInner aL bL ((List.range (aL.length - 1)).map (· + 1)) with
    | .ok true => coprimeOuter aL bL j
    | r => r

/-- Model of `Utility::Math::areCoprimes`: returns `true` at once if either argument
is `1`; otherwise runs the positional comparison of the two divisor lists. -/
def areCoprimes (a b : ℤ) : Except RSAError Bool :=
  if a = 1 ∨ b = 1 then .ok true
  else
    let aL := dividerList a
    let bL := dividerList b
    coprimeOuter aL bL (bL.length - 1)

/-- Model of `Utility::Math::phi`: asserts `p * q == n` and `isPrime(p) && isPrime(q)`
(a fired assert is modelled as `InvalidArgument`), then returns
`(p - 1) * (q - 1)`. -/
def phi (n p q : ℤ) : Except RSAError ℤ :=
  if p * q ≠ n then .error .InvalidArgument
  else if ¬(isPrime p ∧ isPrime q) then .error .InvalidArgument
  else .ok ((p - 1) * (q - 1))

/-- Model of `Utility::Math::power`: returns `1` for exponent `0`; otherwise starts
from `result = x` and multiplies by `x` once for each `i` with
`1 ≤ i < exponent` (so a negative exponent also returns `x`). -/
def power (x exponent : ℤ) : ℤ :=
  if exponent = 0 then 1 else x * x ^ (exponent - 1).toNat

end Math

end Utility

namespace Generate

/-- The exponent scan of `Generate::publicKey`: tries each candidate in turn;
a candidate accepted by `areCoprimes` is returned, an error from
`areCoprimes` propagates, and an exhausted list leaves `e` at its
value-initialized `0`. -/
def scanE (phiN : ℤ) : List ℤ → Except RSAError ℤ
  | [] => .ok 0
  | i :: rest =>
    match Utility.Math.areCoprimes i phiN with
    | .ok true => .ok i
    | .ok false => scanE phiN rest
    | .error err => .error err

/-- The candidate list of the exponent scan: `i` runs over `[2, phiN)`. -/
def eCandidates (phiN : ℤ) : List ℤ :=
  (List.range (phiN - 2).toNat).map (fun (j : ℕ) => (j : ℤ) + 2)

/-- Model of `Generate::publicKey`: asserts primality of `p` and `q`, computes
`n = p * q` and `φ` via `Utility::Math::phi`, then scans `e` upward from `2`.
Note the C++ has no check after the loop: if no candidate is accepted the
zero-initialized `e = 0` is returned inside the key. -/
def publicKey (p q : ℤ) : Except RSAError Key.Public :=
  if ¬(Utility.Math.isPrime p ∧ Utility.Math.isPrime q) then .error .InvalidArgument
  else
    match Utility.Math.phi (p * q) p q with
    | .error err => .error err
    | .ok n_eulero =>
      match scanE n_eulero (eCandidates n_eulero) with
      | .error err => .error err
      | .ok e => .ok ⟨p * q, e⟩

/-- The `k`-search of `Generate::privateKey`.  The C++ tests whether
`(1.0 / e) + k * (φ / e)` is within `0.0001` of an integer, a floating-point
approximation of the exact condition `(1 + k * φ) % e == 0` that the spec
names as the intended test; the embedding uses the exact condition.  The C++
loop is unbounded; here the fuel argument bounds it, and `NonTermination`
reports an exhausted search.  The callers below pass fuel `e.toNat`, which
covers `k = 1, …, e`; whenever the exact condition is satisfiable at all, its
least positive solution lies in that range, so the bounded search returns
exactly what the unbounded one would. -/
def findD (phiN e : ℤ) : ℕ → ℤ → Except RSAError ℤ
  | 0, _ => .error .NonTermination
  | fuel + 1, k =>
    if (1 + k * phiN) % e = 0 then .ok ((1 + k * phiN) / e)
    else findD phiN e fuel (k + 1)

/-- Model of `Generate::privateKey`: asserts primality of `p` and `q`, recomputes `φ`
from the public key's `n` (which re-asserts `p * q == n`), then searches for
the smallest `k ≥ 1` making `(1 + k * φ) / e` an exact integer and returns
`{ p, q, d }` with that quotient as `d`. -/
def privateKey (p q : ℤ) (publicKey : Key.Public) : Except RSAError Key.Private :=
  if ¬(Utility.Math.isPrime p ∧ Utility.Math.isPrime q) then .error .InvalidArgument
  else
    match Utility.Math.phi publicKey.n p q with
    | .error err => .error err
    | .ok n_eulero =>
      match findD n_eulero publicKey.e publicKey.e.toNat 1 with
      | .error err => .error err
      | .ok d => .ok ⟨p, q, d⟩

end Generate

/-- Model of `encode`: computes `c = power(m, e) % n`. -/
def encode (publicKey : Key.Public) (m : ℤ) : ℤ :=
  Utility.Math.power m publicKey.e % publicKey.n

/-- Model of `decode`: computes `m = power(c, d) % n`. -/
def decode (publicKey : Key.Public) (privateKey : Key.Private) (c : ℤ) : ℤ :=
  Utility.Math.power c privateKey.d % publicKey.n

/-- The trial-division loop of `isPrime` accepts `x` exactly when no integer
`i` with `2 ≤ i < x` divides `x` evenly. -/
lemma isPrime_iff (x : ℤ) :
    Utility.Math.isPrime x = true ↔ ∀ i : ℤ, 2 ≤ i → i < x → x % i ≠ 0 := by
  unfold Utility.Math.isPrime
  rw [List.all_eq_true]
  constructor
  · intro h i h2 hix
    have hj : (i - 2).toNat < (x - 2).toNat := by omega
    have h' := h ((i - 2).toNat) (List.mem_range.mpr hj)
    rw [show ((i - 2).toNat : ℤ) + 2 = i by omega] at h'
    simpa using h'
  · intro h j hj
    rw [List.mem_range] at hj
    simpa using h ((j : ℤ) + 2) (by omega) (by omega)

/-- For `x ≥ 2`, passing the program's trial-division test means `x.toNat`
is a genuine prime. -/
lemma isPrime_nat_prime {x : ℤ} (h2 : 2 ≤ x) (h : Utility.Math.isPrime x = true) :
    Nat.Prime x.toNat := by
  rw [Nat.prime_def_lt]
  refine ⟨by omega, fun m hm hdvd => ?_⟩
  by_contra hm1
  have hm0 : m ≠ 0 := by
    rintro rfl
    rw [zero_dvd_iff] at hdvd
    omega
  have hdvdZ : (m : ℤ) ∣ x := by
    have := Int.natCast_dvd_natCast.mpr hdvd
    rwa [Int.toNat_of_nonneg (by omega : (0 : ℤ) ≤ x)] at this
  have hmod : x % (m : ℤ) = 0 := Int.emod_eq_zero_of_dvd hdvdZ
  exact (isPrime_iff x).mp h (m : ℤ) (by omega) (by omega) hmod

/-- For exponent at least `1`, `power` is ordinary exponentiation. -/
lemma power_eq_pow {x e : ℤ} (he : 1 ≤ e) :
    Utility.Math.power x e = x ^ e.toNat := by
  unfold Utility.Math.power
  rw [if_neg (by omega)]
  rw [show e.toNat = (e - 1).toNat + 1 by omega, pow_succ]
  ring

/-- C2: the exact end-to-end chain for `p = 3`, `q = 11`: `n = 33`, `φ = 20`,
`e = 3`, `d = 7` with `3 * 7 ≡ 1 (mod 20)`, `encode 7 = 7³ mod 33 = 13`
(with `7³ = 343`), and `decode 13 = 13⁷ mod 33 = 7`. -/
theorem C2_end_to_end_chain :
    Generate.publicKey 3 11 = .ok ⟨33, 3⟩ ∧
    Utility.Math.phi 33 3 11 = .ok 20 ∧
    Generate.privateKey 3 11 ⟨33, 3⟩ = .ok ⟨3, 11, 7⟩ ∧
    (3 * 7) % 20 = (1 : ℤ) ∧
    Utility.Math.power 7 3 = 343 ∧
    encode ⟨33, 3⟩ 7 = 13 ∧
    Utility.Math.power 13 7 % 33 = (7 : ℤ) ∧
    decode ⟨33, 3⟩ ⟨3, 11, 7⟩ 13 = 7 :=
  ⟨rfl, rfl, rfl, by decide, by decide, by decide, by decide, by decide⟩

/-- C3: the code evaluated at the failing input `a = 9`, `b = 6`:
`areCoprimes` answers `true` although `gcd 9 6 = 3`, contradicting its own
contract `gcd(a,b) = 1`; the early-return for an argument equal to `1` does
hold. -/
theorem C3_coprimality_bug_eval :
    Utility.Math.areCoprimes 9 6 = .ok true ∧ Int.gcd 9 6 = 3 ∧
    Utility.Math.areCoprimes 1 5 = .ok true ∧ Utility.Math.areCoprimes 5 1 = .ok true :=
  ⟨rfl, by decide, rfl, rfl⟩

/-- C4: the code evaluated at the failing input `p = 3`, `q = 7`: the scan
returns `e = 3` although `gcd 3 12 = 3 ≠ 1` (the smallest genuinely coprime
candidate is `5`); the particular case `publicKey 3 11 = {33, 3}` from the
claim does hold. -/
theorem C4_public_exponent_bug_eval :
    Generate.publicKey 3 7 = .ok ⟨21, 3⟩ ∧ Int.gcd 3 12 = 3 ∧ Int.gcd 5 12 = 1 ∧
    Generate.publicKey 3 11 = .ok ⟨33, 3⟩ :=
  ⟨rfl, by decide, by decide, rfl⟩

/-- C7: `phi 15 3 5 = 8`; `phi 14 3 5` fails because `3 * 5 ≠ 14`; and key
generation with the non-prime `p = 4` fails instead of producing a key. -/
theorem C7_totient_and_primality_checks :
    Utility.Math.phi 15 3 5 = .ok 8 ∧
    Utility.Math.phi 14 3 5 = .error .InvalidArgument ∧
    Generate.publicKey 4 11 = .error .InvalidArgument :=
  ⟨rfl, rfl, rfl⟩

/-- C8 counterexample: the claim asserts `isPrime(1) == false`, but the trial
range `[2, 1)` is empty, so the code returns `true` for `1`. -/
theorem C8_isPrime_one_counterexample : Utility.Math.isPrime 1 = true := by decide

/-- C8 (amended): `isPrime` returns `true` for `2`, `true` for `1` (the
vacuous trial range), `true` for `17` and `false` for `15`. -/
theorem C8_isPrime_values :
    Utility.Math.isPrime 2 = true ∧ Utility.Math.isPrime 1 = true ∧
    Utility.Math.isPrime 17 = true ∧ Utility.Math.isPrime 15 = false := by
  refine ⟨by decide, by decide, by decide, by decide⟩

/-- C9: for every integer `x`, `isPrime x` returns `true` iff no integer `i`
with `2 ≤ i < x` divides `x` evenly. -/
theorem C9_isPrime_characterization (x : ℤ) :
    Utility.Math.isPrime x = true ↔ ∀ i : ℤ, 2 ≤ i → i < x → x % i ≠ 0 :=
  isPrime_iff x

/-- C10 counterexample: at the claim's own example `a = 12`, `b = 4` the
positional match `a_dividerList[1] == b_dividerList[1]` (both `2`) returns
`false` before the out-of-bounds index is reached, so the access is not out
of bounds there even though `a` has strictly more divisors than `b`. -/
theorem C10_oob_counterexample :
    (Utility.Math.dividerList 4).length < (Utility.Math.dividerList 12).length ∧
    Utility.Math.areCoprimes 12 4 = .ok false :=
  ⟨by decide, rfl⟩

/-- C10 (amended): the out-of-range branch is reachable: there are inputs
`a, b > 1` with `a` having strictly more divisors than `b` (here `a = 8`,
`b = 9`) on which the inner loop indexes `b`'s divisor list out of bounds. -/
theorem C10_oob_reachable :
    ∃ a b : ℤ, 1 < a ∧ 1 < b ∧
      (Utility.Math.dividerList b).length < (Utility.Math.dividerList a).length ∧
      Utility.Math.areCoprimes a b = .error .UndefinedBehavior :=
  ⟨8, 9, by decide, by decide, by decide, rfl⟩

/-- C1 counterexample: for the prime pair `p = q = 3` and message `m = 3`
(with `0 < 3 < 9`) the generated keys are `{9, 3}` and `{3, 3, 3}`, and the
round trip yields `3³ mod 9 = 0`, then `0³ mod 9 = 0 ≠ 3`. -/
theorem C1_roundtrip_counterexample :
    Utility.Math.isPrime 3 = true ∧ (0 : ℤ) < 3 ∧ (3 : ℤ) < 3 * 3 ∧
    Generate.publicKey 3 3 = .ok ⟨9, 3⟩ ∧
    Generate.privateKey 3 3 ⟨9, 3⟩ = .ok ⟨3, 3, 3⟩ ∧
    decode ⟨9, 3⟩ ⟨3, 3, 3⟩ (encode ⟨9, 3⟩ 3) = 0 ∧ (0 : ℤ) ≠ 3 :=
  ⟨by decide, by decide, by decide, rfl, rfl, by decide, by decide⟩

/-- C5 counterexample: for the prime pair `p = 3`, `q = 7` the generated
public key is `{21, 3}` with `φ = 12`; no `d` at all satisfies
`3 * d ≡ 1 (mod 12)`, the search condition `(1 + 12k) % 3 = 0` holds for no
`k`, and the (bounded model of the) unbounded search does not terminate. -/
theorem C5_privateKey_counterexample :
    Utility.Math.isPrime 3 = true ∧ Utility.Math.isPrime 7 = true ∧
    Generate.publicKey 3 7 = .ok ⟨21, 3⟩ ∧
    Generate.privateKey 3 7 ⟨21, 3⟩ = .error .NonTermination ∧
    (∀ d : ℕ, d < 12 → (3 * d) % 12 ≠ 1) ∧
    (∀ k : ℕ, (1 + 12 * k) % 3 ≠ 0) :=
  ⟨by decide, by decide, rfl, rfl, by decide, fun k => by omega⟩

/-- C6 counterexample: at `p = q = 2` (both accepted by the code's primality
test) we have `φ = 1`, no exponent `2 ≤ e < φ` exists, and `publicKey`
returns the key `{4, 0}` with the zero-initialized `e` instead of failing
with `NoValidExponent`. -/
theorem C6_noValidExponent_counterexample :
    Generate.publicKey 2 2 = .ok ⟨4, 0⟩ ∧
    (∀ e : ℤ, ¬(2 ≤ e ∧ e < (2 - 1) * (2 - 1))) :=
  ⟨rfl, fun e => by omega⟩

/-- The exponent scan can only return `0` (exhausted list, zero-initialized
`e`) or one of its candidates. -/
lemma scanE_ok {phiN e : ℤ} : ∀ {l : List ℤ}, Generate.scanE phiN l = .ok e →
    e = 0 ∨ e ∈ l := by
  intro l
  induction l with
  | nil =>
    intro h
    simp only [Generate.scanE] at h
    exact Or.inl (Except.ok.inj h).symm
  | cons i rest ih =>
    intro h
    simp only [Generate.scanE] at h
    split at h
    · cases h
      exact Or.inr (List.mem_cons_self _ _)
    · rcases ih h with h0 | hmem
      · exact Or.inl h0
      · exact Or.inr (List.mem_cons_of_mem i hmem)
    · cases h

/-- A successful `findD` run returns the quotient at the first `k` in the
searched window that satisfies the divisibility condition. -/
lemma findD_ok {phiN e : ℤ} : ∀ {fuel : ℕ} {k0 d : ℤ},
    Generate.findD phiN e fuel k0 = .ok d →
    ∃ k : ℤ, k0 ≤ k ∧ k < k0 + fuel ∧ (1 + k * phiN) % e = 0 ∧
      d = (1 + k * phiN) / e ∧
      ∀ j : ℤ, k0 ≤ j → j < k → (1 + j * phiN) % e ≠ 0 := by
  intro fuel
  induction fuel with
  | zero =>
    intro k0 d h
    simp only [Generate.findD] at h
    cases h
  | succ fuel ih =>
    intro k0 d h
    simp only [Generate.findD] at h
    split at h
    · rename_i hc
      cases h
      exact ⟨k0, le_refl _, by omega, hc, rfl, fun j hj1 hj2 => absurd hj2 (by omega)⟩
    · rename_i hc
      obtain ⟨k, h1, h2, h3, h4, h5⟩ := ih h
      refine ⟨k, by omega, by omega, h3, h4, fun j hj1 hj2 => ?_⟩
      rcases eq_or_lt_of_le hj1 with rfl | hlt
      · exact hc
      · exact h5 j (by omega) hj2

/-- Every candidate scanned for the public exponent lies in `[2, φ)`. -/
lemma mem_eCandidates {phiN x : ℤ} (h : x ∈ Generate.eCandidates phiN) :
    2 ≤ x ∧ x < phiN := by
  unfold Generate.eCandidates at h
  rw [List.mem_map] at h
  obtain ⟨j, hj, rfl⟩ := h
  rw [List.mem_range] at hj
  constructor <;> omega

/-- Lemma: `phi` succeeds on a product of two inputs passing the primality test. -/
lemma phi_ok {p q : ℤ} (hp : Utility.Math.isPrime p = true)
    (hq : Utility.Math.isPrime q = true) :
    Utility.Math.phi (p * q) p q = .ok ((p - 1) * (q - 1)) := by
  unfold Utility.Math.phi
  rw [if_neg (by simp), if_neg (by simp [hp, hq])]

/-- Inversion for a successful `publicKey` call: the inputs passed the
primality test, the modulus is `p * q`, and the exponent is either the
zero-initialized `0` or a scanned candidate in `[2, φ)`. -/
lemma publicKey_ok {p q : ℤ} {pub : Key.Public}
    (h : Generate.publicKey p q = .ok pub) :
    Utility.Math.isPrime p = true ∧ Utility.Math.isPrime q = true ∧
      pub.n = p * q ∧
      (pub.e = 0 ∨ (2 ≤ pub.e ∧ pub.e < (p - 1) * (q - 1))) := by
  unfold Generate.publicKey at h
  split at h
  · cases h
  · rename_i hcond
    rw [not_not] at hcond
    obtain ⟨hp, hq⟩ := hcond
    split at h
    · cases h
    · rename_i n_eulero hphi
      have hcval : n_eulero = (p - 1) * (q - 1) := by
        rw [phi_ok hp hq] at hphi
        exact (Except.ok.inj hphi).symm
      subst hcval
      split at h
      · cases h
      · rename_i e hscan
        cases h
        refine ⟨hp, hq, rfl, ?_⟩
        rcases scanE_ok hscan with h0 | hmem
        · exact Or.inl h0
        · exact Or.inr (mem_eCandidates hmem)

/-- Inversion for a successful `privateKey` call: the asserts passed, the
returned record carries `p` and `q` unchanged, and `d` is the quotient at
the first `k ≥ 1` satisfying the divisibility condition. -/
lemma privateKey_ok {p q : ℤ} {pub : Key.Public} {priv : Key.Private}
    (h : Generate.privateKey p q pub = .ok priv) :
    Utility.Math.isPrime p = true ∧ Utility.Math.isPrime q = true ∧
      pub.n = p * q ∧ priv.p = p ∧ priv.q = q ∧ 1 ≤ pub.e ∧
      ∃ k : ℤ, 1 ≤ k ∧ k ≤ pub.e ∧ (1 + k * ((p - 1) * (q - 1))) % pub.e = 0 ∧
        priv.d = (1 + k * ((p - 1) * (q - 1))) / pub.e ∧
        ∀ j : ℤ, 1 ≤ j → j < k → (1 + j * ((p - 1) * (q - 1))) % pub.e ≠ 0 := by
  unfold Generate.privateKey at h
  split at h
  · cases h
  · rename_i hcond
    rw [not_not] at hcond
    obtain ⟨hp, hq⟩ := hcond
    split at h
    · cases h
    · rename_i c hphi
      have hnc : pub.n = p * q ∧ c = (p - 1) * (q - 1) := by
        unfold Utility.Math.phi at hphi
        split at hphi
        · cases hphi
        · split at hphi
          · cases hphi
          · rename_i h1 h2
            cases hphi
            exact ⟨(not_not.mp h1).symm, rfl⟩
      obtain ⟨hn, rfl⟩ := hnc
      split at h
      · cases h
      · rename_i d0 hfind
        cases h
        have hfuel : 1 ≤ pub.e.toNat := by
          by_contra hf
          have h0 : pub.e.toNat = 0 := by omega
          rw [h0] at hfind
          simp only [Generate.findD] at hfind
          cases hfind
        obtain ⟨k, hk1, hk2, hk3, hk4, hk5⟩ := findD_ok hfind
        exact ⟨hp, hq, hn, rfl, rfl, by omega,
          k, hk1, by omega, hk3, hk4, hk5⟩

/-- The inner loop of `areCoprimes` never produces `NoValidExponent`. -/
lemma coprimeInner_not_noValid (aL bL : List ℤ) :
    ∀ l : List ℕ, Utility.Math.coprimeInner aL bL l ≠ .error .NoValidExponent := by
  intro l
  induction l with
  | nil => intro hcontra; cases hcontra
  | cons i rest ih =>
    simp only [Utility.Math.coprimeInner]
    split
    · intro hcontra
      exact RSAError.noConfusion (Except.error.inj hcontra)
    · split
      · intro hcontra; cases hcontra
      · exact ih

/-- The outer loop of `areCoprimes` never produces `NoValidExponent`. -/
lemma coprimeOuter_not_noValid (aL bL : List ℤ) :
    ∀ count : ℕ, Utility.Math.coprimeOuter aL bL count ≠ .error .NoValidExponent := by
  intro count
  induction count with
  | zero => intro hcontra; cases hcontra
  | succ j ih =>
    simp only [Utility.Math.coprimeOuter]
    cases hinner : Utility.Math.coprimeInner aL bL
        ((List.range (aL.length - 1)).map (· + 1)) with
    | ok b =>
      cases b with
      | true => exact ih
      | false =>
        intro hcontra
        cases hcontra
    | error err =>
      intro hcontra
      have h2 : (Except.error err : Except RSAError Bool) = .error .NoValidExponent := hcontra
      have h3 : err = .NoValidExponent := Except.error.inj h2
      rw [h3] at hinner
      exact coprimeInner_not_noValid aL bL _ hinner

/-- Lemma: `areCoprimes` never produces `NoValidExponent`. -/
lemma areCoprimes_not_noValid (a b : ℤ) :
    Utility.Math.areCoprimes a b ≠ .error .NoValidExponent := by
  unfold Utility.Math.areCoprimes
  split
  · intro hcontra; cases hcontra
  · exact coprimeOuter_not_noValid _ _ _

/-- The exponent scan never produces `NoValidExponent`. -/
lemma scanE_not_noValid (phiN : ℤ) :
    ∀ l : List ℤ, Generate.scanE phiN l ≠ .error .NoValidExponent := by
  intro l
  induction l with
  | nil => intro hcontra; cases hcontra
  | cons i rest ih =>
    simp only [Generate.scanE]
    cases hac : Utility.Math.areCoprimes i phiN with
    | ok b =>
      cases b with
      | true => intro hcontra; cases hcontra
      | false => exact ih
    | error err =>
      intro hcontra
      have h2 : (Except.error err : Except RSAError ℤ) = .error .NoValidExponent := hcontra
      have h3 : err = .NoValidExponent := Except.error.inj h2
      rw [h3] at hac
      exact areCoprimes_not_noValid i phiN hac

/-- On inputs passing the primality test, `publicKey` reduces to the scan
over the candidate exponents. -/
lemma publicKey_eq {p q : ℤ} (hp : Utility.Math.isPrime p = true)
    (hq : Utility.Math.isPrime q = true) :
    Generate.publicKey p q =
      match Generate.scanE ((p - 1) * (q - 1))
          (Generate.eCandidates ((p - 1) * (q - 1))) with
      | .error err => .error err
      | .ok e => .ok ⟨p * q, e⟩ := by
  unfold Generate.publicKey
  rw [if_neg (not_not_intro ⟨hp, hq⟩), phi_ok hp hq]

/-- C6 (amended): the code has no `NoValidExponent` check at all: `publicKey`
never surfaces that error, and on inputs where the scan finds no candidate
(`p = q = 2` with `φ = 1`, or `p = 2, q = 3` with `φ = 2`) it returns the
key with the zero-initialized exponent `e = 0` instead. -/
theorem C6_scan_exhaustion_returns_key :
    (∀ p q : ℤ, Generate.publicKey p q ≠ .error .NoValidExponent) ∧
    Generate.publicKey 2 2 = .ok ⟨4, 0⟩ ∧
    Generate.publicKey 2 3 = .ok ⟨6, 0⟩ := by
  refine ⟨fun p q => ?_, rfl, rfl⟩
  by_cases hpr : Utility.Math.isPrime p = true ∧ Utility.Math.isPrime q = true
  · obtain ⟨hp, hq⟩ := hpr
    rw [publicKey_eq hp hq]
    cases hscan : Generate.scanE ((p - 1) * (q - 1))
        (Generate.eCandidates ((p - 1) * (q - 1))) with
    | ok e =>
      intro hcontra
      exact Except.noConfusion hcontra
    | error err =>
      intro hcontra
      have h2 : (Except.error err : Except RSAError Key.Public)
          = .error .NoValidExponent := hcontra
      have h3 : err = .NoValidExponent := Except.error.inj h2
      rw [h3] at hscan
      exact scanE_not_noValid _ _ hscan
  · unfold Generate.publicKey
    rw [if_pos hpr]
    intro hcontra
    exact RSAError.noConfusion (Except.error.inj hcontra)

/-- Everything a successful `publicKey`/`privateKey` pair guarantees: the key
equation `e * d = 1 + k * φ` for the first valid `k`, together with the
ranges of `e`, `d` and `k`. -/
lemma key_equation {p q : ℤ} {pub : Key.Public} {priv : Key.Private}
    (hpub : Generate.publicKey p q = .ok pub)
    (hpriv : Generate.privateKey p q pub = .ok priv) :
    Utility.Math.isPrime p = true ∧ Utility.Math.isPrime q = true ∧
      pub.n = p * q ∧ priv.p = p ∧ priv.q = q ∧
      2 ≤ pub.e ∧ pub.e < (p - 1) * (q - 1) ∧
      ∃ k : ℤ, 1 ≤ k ∧ k < pub.e ∧
        pub.e * priv.d = 1 + k * ((p - 1) * (q - 1)) ∧
        1 ≤ priv.d ∧ priv.d < (p - 1) * (q - 1) ∧
        (1 + k * ((p - 1) * (q - 1))) % pub.e = 0 ∧
        priv.d = (1 + k * ((p - 1) * (q - 1))) / pub.e ∧
        ∀ j : ℤ, 1 ≤ j → j < k → (1 + j * ((p - 1) * (q - 1))) % pub.e ≠ 0 := by
  obtain ⟨hp, hq, hn, hecase⟩ := publicKey_ok hpub
  obtain ⟨-, -, -, hpp, hpq, he1, k, hk1, hke, hkmod, hd, hmin⟩ := privateKey_ok hpriv
  have he2 : 2 ≤ pub.e ∧ pub.e < (p - 1) * (q - 1) := by
    rcases hecase with h0 | h2
    · omega
    · exact h2
  obtain ⟨he2', heC⟩ := he2
  generalize hgen : (p - 1) * (q - 1) = c at *
  have hc3 : 3 ≤ c := by omega
  have hdvd : pub.e ∣ (1 + k * c) := Int.dvd_of_emod_eq_zero hkmod
  have hed : pub.e * priv.d = 1 + k * c := by
    rw [hd]
    exact Int.mul_ediv_cancel' hdvd
  have hkedge : k < pub.e := by
    rcases eq_or_lt_of_le hke with heq | hlt
    · exfalso
      rw [heq] at hdvd
      have h1 : pub.e ∣ pub.e * c := dvd_mul_right pub.e c
      have h2 : pub.e ∣ 1 := by
        have h3 := dvd_sub hdvd h1
        have h4 : 1 + pub.e * c - pub.e * c = 1 := by ring
        rwa [h4] at h3
      have := Int.le_of_dvd one_pos h2
      omega
    · exact hlt
  have hkc : c ≤ k * c := le_mul_of_one_le_left (by omega) hk1
  have hedpos : 0 < pub.e * priv.d := by
    rw [hed]; linarith
  have hd1 : 1 ≤ priv.d := by
    rcases mul_pos_iff.mp hedpos with ⟨-, hpos⟩ | ⟨hneg, -⟩
    · omega
    · omega
  have hkc2 : k * c ≤ pub.e * c - c := by
    have h5 : k * c ≤ (pub.e - 1) * c := by
      exact mul_le_mul_of_nonneg_right (by omega) (by omega)
    have h6 : (pub.e - 1) * c = pub.e * c - c := by ring
    omega
  have hdc : priv.d < c := by
    have h7 : pub.e * priv.d < pub.e * c := by omega
    exact lt_of_mul_lt_mul_left h7 (by omega)
  exact ⟨hp, hq, hn, hpp, hpq, he2', heC,
    k, hk1, hkedge, hed, hd1, hdc, hkmod, hd, hmin⟩

/-- Fermat step: a prime `P` divides `m ^ (1 + t * (P - 1)) - m` for every
integer `m` and every `t`. -/
lemma prime_dvd_pow_sub_self (P : ℕ) (hP : P.Prime) (t : ℕ) (m : ℤ) :
    (P : ℤ) ∣ m ^ (1 + t * (P - 1)) - m := by
  haveI : Fact P.Prime := ⟨hP⟩
  haveI : NeZero P := ⟨hP.pos.ne'⟩
  by_cases hdvd : (P : ℤ) ∣ m
  · have hn0 : 1 + t * (P - 1) ≠ 0 := by positivity
    exact dvd_sub (hdvd.trans (dvd_pow_self m hn0)) hdvd
  · have hm : (m : ZMod P) ≠ 0 := by
      rw [Ne, ZMod.intCast_zmod_eq_zero_iff_dvd]
      exact hdvd
    have hfermat : (m : ZMod P) ^ (P - 1) = 1 := ZMod.pow_card_sub_one_eq_one hm
    have hcast : ((m ^ (1 + t * (P - 1)) - m : ℤ) : ZMod P) = 0 := by
      push_cast
      rw [pow_add, pow_one, mul_comm t (P - 1), pow_mul, hfermat, one_pow, mul_one,
        sub_self]
    exact (ZMod.intCast_zmod_eq_zero_iff_dvd _ _).mp hcast

/-- The textbook RSA congruence: for distinct primes `P ≠ Q` and an exponent
of the shape `1 + s * (P-1)(Q-1)`, raising any integer to it is the identity
modulo `P * Q`. -/
lemma rsa_exponent_dvd (P Q : ℕ) (hP : P.Prime) (hQ : Q.Prime) (hPQ : P ≠ Q)
    (E s : ℕ) (hE : E = 1 + s * ((P - 1) * (Q - 1))) (m : ℤ) :
    ((P : ℤ) * Q) ∣ m ^ E - m := by
  have hco : Nat.Coprime P Q := (Nat.coprime_primes hP hQ).mpr hPQ
  have hcoZ : IsCoprime (P : ℤ) (Q : ℤ) := Nat.isCoprime_iff_coprime.mpr hco
  have h1 : (P : ℤ) ∣ m ^ E - m := by
    have hsh : E = 1 + s * (Q - 1) * (P - 1) := by
      rw [hE, show (P - 1) * (Q - 1) = (Q - 1) * (P - 1) from mul_comm _ _, ← mul_assoc]
    rw [hsh]
    exact prime_dvd_pow_sub_self P hP (s * (Q - 1)) m
  have h2 : (Q : ℤ) ∣ m ^ E - m := by
    have hsh : E = 1 + s * (P - 1) * (Q - 1) := by
      rw [hE, ← mul_assoc]
    rw [hsh]
    exact prime_dvd_pow_sub_self Q hQ (s * (P - 1)) m
  exact hcoZ.mul_dvd h1 h2

/-- C1 (amended): for distinct primes `p ≠ q`, whenever both key-generation
calls succeed, every message `0 < m < p * q` round-trips through
`encode`/`decode` (in exact integer arithmetic). -/
theorem C1_roundtrip (p q m : ℤ) (pub : Key.Public) (priv : Key.Private)
    (hp2 : 2 ≤ p) (hq2 : 2 ≤ q) (hpqne : p ≠ q)
    (hpub : Generate.publicKey p q = .ok pub)
    (hpriv : Generate.privateKey p q pub = .ok priv)
    (hm0 : 0 < m) (hmn : m < p * q) :
    decode pub priv (encode pub m) = m := by
  obtain ⟨hp, hq, hn, hpp, hpq', he2, heC, k, hk1, hke, hed, hd1, hdc, hkmod, hdq, hmin⟩ :=
    key_equation hpub hpriv
  have hPp : Nat.Prime p.toNat := isPrime_nat_prime hp2 hp
  have hQp : Nat.Prime q.toNat := isPrime_nat_prime hq2 hq
  have hPQ : p.toNat ≠ q.toNat := fun hcontra => hpqne (by omega)
  have he1 : 1 ≤ pub.e := by omega
  have hEZ : ((pub.e.toNat * priv.d.toNat : ℕ) : ℤ) = 1 + k * ((p - 1) * (q - 1)) := by
    rw [Nat.cast_mul, Int.toNat_of_nonneg (by omega : (0 : ℤ) ≤ pub.e),
      Int.toNat_of_nonneg (by omega : (0 : ℤ) ≤ priv.d), hed]
  have hEN : pub.e.toNat * priv.d.toNat
      = 1 + k.toNat * ((p.toNat - 1) * (q.toNat - 1)) := by
    have h1 : ((pub.e.toNat * priv.d.toNat : ℕ) : ℤ)
        = ((1 + k.toNat * ((p.toNat - 1) * (q.toNat - 1)) : ℕ) : ℤ) := by
      rw [hEZ]
      push_cast
      rw [Int.toNat_of_nonneg (by omega : (0 : ℤ) ≤ k),
        show ((p.toNat - 1 : ℕ) : ℤ) = p - 1 by omega,
        show ((q.toNat - 1 : ℕ) : ℤ) = q - 1 by omega]
    exact Nat.cast_injective h1
  have hdvd := rsa_exponent_dvd p.toNat q.toNat hPp hQp hPQ
    (pub.e.toNat * priv.d.toNat) k.toNat hEN m
  rw [Int.toNat_of_nonneg (by omega : (0 : ℤ) ≤ p),
    Int.toNat_of_nonneg (by omega : (0 : ℤ) ≤ q)] at hdvd
  show Utility.Math.power (Utility.Math.power m pub.e % pub.n) priv.d % pub.n = m
  rw [hn, power_eq_pow he1, power_eq_pow hd1]
  have hstep : ((m ^ pub.e.toNat % (p * q)) ^ priv.d.toNat) % (p * q)
      = (m ^ pub.e.toNat) ^ priv.d.toNat % (p * q) :=
    (Int.mod_modEq (m ^ pub.e.toNat) (p * q)).pow priv.d.toNat
  rw [hstep, ← pow_mul]
  have hmodeq : m ^ (pub.e.toNat * priv.d.toNat) % (p * q) = m % (p * q) :=
    (Int.modEq_iff_dvd.mpr hdvd).symm
  rw [hmodeq]
  exact Int.emod_eq_of_lt (by omega) hmn

/-- C1 witness: the amended round-trip theorem applied at `p = 3`, `q = 11`,
`m = 7`. -/
theorem C1_roundtrip_witness :
    (2 : ℤ) ≤ 3 ∧ (2 : ℤ) ≤ 11 ∧ (3 : ℤ) ≠ 11 ∧
    Generate.publicKey 3 11 = .ok ⟨33, 3⟩ ∧
    Generate.privateKey 3 11 ⟨33, 3⟩ = .ok ⟨3, 11, 7⟩ ∧
    (0 : ℤ) < 7 ∧ (7 : ℤ) < 3 * 11 ∧
    decode ⟨33, 3⟩ ⟨3, 11, 7⟩ (encode ⟨33, 3⟩ 7) = 7 :=
  ⟨by decide, by decide, by decide, rfl, rfl, by decide, by decide,
    C1_roundtrip 3 11 7 ⟨33, 3⟩ ⟨3, 11, 7⟩ (by decide) (by decide) (by decide)
      rfl rfl (by decide) (by decide)⟩

/-- C5 (amended): whenever the whole generation chain succeeds — which it
does exactly when the generated `e` admits an inverse, and fails to
terminate otherwise, e.g. at `p = 3, q = 7` — the returned `d` is the unique
value in `[1, φ)` with `e * d ≡ 1 (mod φ)`, obtained as `(1 + k * φ) / e`
for the smallest positive `k` making that quotient an exact integer. -/
theorem C5_privateKey_inverse (p q : ℤ) (pub : Key.Public) (priv : Key.Private)
    (hpub : Generate.publicKey p q = .ok pub)
    (hpriv : Generate.privateKey p q pub = .ok priv) :
    priv.p = p ∧ priv.q = q ∧
    1 ≤ priv.d ∧ priv.d < (p - 1) * (q - 1) ∧
    (pub.e * priv.d) % ((p - 1) * (q - 1)) = 1 ∧
    (∀ d' : ℤ, 1 ≤ d' → d' < (p - 1) * (q - 1) →
      (pub.e * d') % ((p - 1) * (q - 1)) = 1 → d' = priv.d) ∧
    (∃ k : ℤ, 1 ≤ k ∧ (1 + k * ((p - 1) * (q - 1))) % pub.e = 0 ∧
      priv.d = (1 + k * ((p - 1) * (q - 1))) / pub.e ∧
      ∀ j : ℤ, 1 ≤ j → j < k → (1 + j * ((p - 1) * (q - 1))) % pub.e ≠ 0) := by
  obtain ⟨hp, hq, hn, hpp, hpq', he2, heC, k, hk1, hke, hed, hd1, hdc, hkmod, hdq, hmin⟩ :=
    key_equation hpub hpriv
  generalize hgen : (p - 1) * (q - 1) = c at *
  have hc3 : 3 ≤ c := by omega
  have hmod : (pub.e * priv.d) % c = 1 := by
    rw [hed, Int.add_mul_emod_self]
    exact Int.emod_eq_of_lt (by omega) (by omega)
  refine ⟨hpp, hpq', hd1, hdc, hmod, ?_, k, hk1, hkmod, hdq, hmin⟩
  intro d' hd'1 hd'c hmod'
  have hco : IsCoprime pub.e c := by
    refine ⟨priv.d, -k, ?_⟩
    have h8 := mul_comm priv.d pub.e
    linarith [hed, h8]
  have hmodeq : (pub.e * priv.d) % c = (pub.e * d') % c := by rw [hmod, hmod']
  have hdvd2 : c ∣ pub.e * d' - pub.e * priv.d := Int.ModEq.dvd hmodeq
  have hdvd3 : c ∣ pub.e * (d' - priv.d) := by
    have h9 : pub.e * (d' - priv.d) = pub.e * d' - pub.e * priv.d := by ring
    rwa [h9]
  have hdvd4 : c ∣ d' - priv.d := (hco.symm).dvd_of_dvd_mul_left hdvd3
  obtain ⟨t, ht⟩ := hdvd4
  have ht0 : t = 0 := by
    rcases lt_trichotomy t 0 with hneg | hzero | hpos
    · exfalso
      have h10 : c * t ≤ c * (-1) := mul_le_mul_of_nonneg_left (by omega) (by omega)
      linarith [ht, h10, hd'1, hdc]
    · exact hzero
    · exfalso
      have h11 : c * 1 ≤ c * t := mul_le_mul_of_nonneg_left (by omega) (by omega)
      linarith [ht, h11, hd'c, hd1]
  rw [ht0, mul_zero] at ht
  omega

/-- C5 witness: the amended private-key theorem applied at `p = 3`, `q = 11`
with the generated keys `{33, 3}` and `{3, 11, 7}`. -/
theorem C5_privateKey_inverse_witness :
    Generate.publicKey 3 11 = .ok ⟨33, 3⟩ ∧
    Generate.privateKey 3 11 ⟨33, 3⟩ = .ok ⟨3, 11, 7⟩ ∧
    ((3 : ℤ) = 3 ∧ (11 : ℤ) = 11 ∧
     1 ≤ (7 : ℤ) ∧ (7 : ℤ) < (3 - 1) * (11 - 1) ∧
     (3 * 7) % ((3 - 1) * (11 - 1)) = (1 : ℤ) ∧
     (∀ d' : ℤ, 1 ≤ d' → d' < (3 - 1) * (11 - 1) →
       (3 * d') % ((3 - 1) * (11 - 1)) = 1 → d' = 7) ∧
     (∃ k : ℤ, 1 ≤ k ∧ (1 + k * ((3 - 1) * (11 - 1))) % 3 = 0 ∧
       (7 : ℤ) = (1 + k * ((3 - 1) * (11 - 1))) / 3 ∧
       ∀ j : ℤ, 1 ≤ j → j < k → (1 + j * ((3 - 1) * (11 - 1))) % 3 ≠ 0)) :=
  ⟨rfl, rfl, C5_privateKey_inverse 3 11 ⟨33, 3⟩ ⟨3, 11, 7⟩ rfl rfl⟩

/-- C9 witness: the characterization evaluated at the concrete input `17`. -/
theorem C9_isPrime_characterization_witness :
    Utility.Math.isPrime 17 = true ↔ (∀ i : ℤ, 2 ≤ i → i < 17 → 17 % i ≠ 0) :=
  C9_isPrime_characterization 17
